import Mathlib

/-!
Verification of the actions-version-check program.

The source is a single Python script. Its pure logic is embedded here:

* Python dictionaries (which preserve insertion order) become association
  lists `List (String × _)`; dictionary access becomes `lookupKey`,
  in-place mutation of an entry becomes `updateAssoc`.
* Loops whose body can raise an uncaught exception (a `ValueError` from
  unpacking `action.split(sep)` into two variables) become `foldOpt`,
  a fold in the `Option` monad; `none` models the uncaught exception.
* The network is out of scope: the latest-release fetch is an oracle
  `latest : String → Option String`, where `none` models a response
  without a `tag_name` field (the `KeyError` branch) and `some tag`
  models `response[..tag_name..]` being `tag`.
* Lines printed by `get_actions_versions` are collected in a log list;
  file writes are modelled as the list of strings passed to `write`.
-/

namespace ActionsVersionCheck

/-- Record stored under each action name in the `actions_versions` dictionary:
the fetched latest release tag and the `versions_used_in_repos` mapping from a
used version string to the list of repositories using it. -/
structure ActionEntry where
  latest_release : String
  versions_used_in_repos : List (String × List String)
deriving DecidableEq, Repr

/-- The `actions_versions` dictionary: action name to its entry. -/
abbrev Table := List (String × ActionEntry)

/-- One record of the repo-usage report `report.json`: fields `owner`, `repo`
and the list `uses` of action-reference strings. -/
structure RepoRecord where
  owner : String
  repo : String
  uses : List String
deriving DecidableEq, Repr

/-- Dictionary lookup on an association list, mirroring `d[k]` returning the
value stored under the first matching key. -/
def lookupKey {β : Type} (k : String) : List (String × β) → Option β
  | [] => none
  | p :: ps => if p.1 = k then some p.2 else lookupKey k ps

/-- In-place mutation of the value stored under key `k`, mirroring
`d[k] = f(d[k])` on a Python dictionary: keys and their order are unchanged. -/
def updateAssoc {β : Type} (k : String) (f : β → β) : List (String × β) → List (String × β) :=
  fun l => l.map (fun p => if p.1 = k then (p.1, f p.2) else p)

/-- Left fold in the `Option` monad: models a loop over a list whose body may
raise an uncaught exception (result `none`). -/
def foldOpt {σ α : Type} (f : σ → α → Option σ) : σ → List α → Option σ
  | s, [] => some s
  | s, a :: l =>
    match f s a with
    | none => none
    | some s' => foldOpt f s' l

/-- Splitting a list of characters at every occurrence of `sep`, keeping empty
pieces, exactly as the Python `str.split(sep)` does. -/
def splitOnChar (sep : Char) : List Char → List (List Char)
  | [] => [[]]
  | c :: cs =>
    if c = sep then [] :: splitOnChar sep cs
    else
      match splitOnChar sep cs with
      | [] => [[c]]
      | h :: t => (c :: h) :: t

/-- Model of `split_action` (source line 25): `action.split(sep)` unpacked into
`action_name, version`. The unpacking raises `ValueError` unless the split has
exactly two pieces, that is unless the separator occurs exactly once; the
raising case is `none`. -/
def split_action (action : String) : Option (String × String) :=
  match splitOnChar '@' action.toList with
  | [a, b] => some (a.asString, b.asString)
  | _ => none

/-- First line printed by `get_actions_versions`. -/
def fetch_start_msg : String := "Fetching latest releases for actions"

/-- Line printed before fetching the latest release of an action. -/
def fetch_msg (action_name : String) : String :=
  "    Fetching latest release for " ++ action_name

/-- Warning printed when the fetched response has no release tag. -/
def no_release_msg (action_name : String) : String :=
  "    No releases found for " ++ action_name ++ " - skipping this action..."

/-- Model of source lines 106-109: record `version` under the entry of an
action whose latest release is `latest_tag`, unless it is already recorded, or
unless only outdated versions are requested and the version string equals the
latest release tag exactly. -/
def add_version (include_up_to_date : Bool) (latest_tag version : String)
    (vs : List (String × List String)) : List (String × List String) :=
  match lookupKey version vs with
  | some _ => vs
  | none =>
    if !include_up_to_date && version == latest_tag then vs
    else vs ++ [(version, [])]

/-- One iteration of the loop of `get_actions_versions` (source lines 93-109).
A malformed reference makes the whole call fail (`none`). A name already in
the table only gets its version recorded. Otherwise the latest release is
fetched: on failure the action is dropped (in the source the fresh entry is
popped again, so the table is unchanged) and a warning is logged; on success
the entry is appended and the version recorded. -/
def gav_step (latest : String → Option String) (include_up_to_date : Bool)
    (st : Table × List String) (action : String) : Option (Table × List String) :=
  match split_action action with
  | none => none
  | some (action_name, version) =>
    match lookupKey action_name st.1 with
    | some _ =>
      some (updateAssoc action_name
        (fun e => { e with
          versions_used_in_repos :=
            add_version include_up_to_date e.latest_release version e.versions_used_in_repos })
        st.1, st.2)
    | none =>
      match latest action_name with
      | none => some (st.1, st.2 ++ [fetch_msg action_name, no_release_msg action_name])
      | some tag =>
        some (st.1 ++ [(action_name,
          ⟨tag, add_version include_up_to_date tag version []⟩)],
          st.2 ++ [fetch_msg action_name])

/-- Model of `get_actions_versions` (source lines 90-111): builds the
`actions_versions` table from the unique-actions list, also returning the
printed lines. -/
def get_actions_versions (latest : String → Option String)
    (unique_actions : List String) (include_up_to_date : Bool) :
    Option (Table × List String) :=
  foldOpt (gav_step latest include_up_to_date) ([], [fetch_start_msg]) unique_actions

/-- Model of the guarded append of source line 121 together with its
`except KeyError: pass` (lines 117-123): append `repo_id` to the usage list of
`version` under `action_name`; if either key is absent the table is returned
unchanged. -/
def append_usage (t : Table) (action_name version repo_id : String) : Table :=
  match lookupKey action_name t with
  | none => t
  | some e =>
    match lookupKey version e.versions_used_in_repos with
    | none => t
    | some _ =>
      updateAssoc action_name
        (fun e' => { e' with
          versions_used_in_repos :=
            updateAssoc version (fun repos => repos ++ [repo_id]) e'.versions_used_in_repos })
        t

/-- One iteration of the inner loop of `get_repo_usage` (source lines 115-123).
The reference is split first (line 116), so a malformed reference fails even
for a filtered-out record. The organization filter `if org:` uses Python
truthiness: `None` and the empty string disable it. -/
def use_step (org : Option String) (r : RepoRecord) (t : Table) (action : String) :
    Option Table :=
  match split_action action with
  | none => none
  | some (action_name, version) =>
    match org with
    | some o =>
      if !o.isEmpty && r.owner != o then some t
      else some (append_usage t action_name version (r.owner ++ "/" ++ r.repo))
    | none => some (append_usage t action_name version (r.owner ++ "/" ++ r.repo))

/-- Model of `get_repo_usage` (source lines 113-124): walk every record of the
repo-usage report and attribute repository identifiers to used versions. -/
def get_repo_usage (repos_report : List RepoRecord) (t : Table) (org : Option String) :
    Option Table :=
  foldOpt (fun t' r => foldOpt (use_step org r) t' r.uses) t repos_report

/-- Model of `clean_output` (source lines 166-176): drop every version whose
usage list is empty, then drop every action whose version mapping became
empty. The source iterates over copies of the key lists while popping, which
is exactly a filter. -/
def clean_output (actions_versions_with_repo_usage : Table) : Table :=
  (actions_versions_with_repo_usage.map
    (fun p => (p.1, { p.2 with versions_used_in_repos :=
      p.2.versions_used_in_repos.filter (fun q => !q.2.isEmpty) })))
    |>.filter (fun p => !p.2.versions_used_in_repos.isEmpty)

/-- Header row written by `write_outdated_actions_csv` (source line 181). -/
def csv_header : String := "action_name,latest_release,used_version,used_in_repos\n"

/-- Model of `write_outdated_actions_csv` (source lines 178-184) as the list of
strings passed to `write`: the header, then one row per action and version,
the repository list joined by semicolons. -/
def write_outdated_actions_csv (actions_versions : Table) : List String :=
  actions_versions.foldl
    (fun lines p =>
      lines ++ p.2.versions_used_in_repos.foldl
        (fun ls q =>
          ls ++ [p.1 ++ "," ++ p.2.latest_release ++ "," ++ q.1 ++ ","
            ++ String.intercalate ";" q.2 ++ "\n"])
        [])
    [csv_header]

/-- List concatenation of the images of a function, used to state the row
structure of the CSV writer. -/
def concatMap {α β : Type} (g : α → List β) : List α → List β
  | [] => []
  | a :: l => g a ++ concatMap g l

/-- Model of the `main` pipeline on already-loaded reports (source lines
194-201): resolve versions, aggregate usage, clean, and render the CSV lines.
The log and the JSON writer play no role here. -/
def run_pipeline (latest : String → Option String) (unique_actions : List String)
    (repos_report : List RepoRecord) (include_up_to_date : Bool) (org : Option String) :
    Option (List String) :=
  match get_actions_versions latest unique_actions include_up_to_date with
  | none => none
  | some (actions_versions, _) =>
    match get_repo_usage repos_report actions_versions org with
    | none => none
    | some t => some (write_outdated_actions_csv (clean_output t))

/-- Boolean test that `sub` starts the list `l`. -/
def starts_with : List Char → List Char → Bool
  | [], _ => true
  | _ :: _, [] => false
  | a :: as, b :: bs => (a == b) && starts_with as bs

/-- Boolean test that `sub` occurs contiguously somewhere in the list. -/
def has_sub (sub : List Char) : List Char → Bool
  | [] => sub.isEmpty
  | c :: rest => starts_with sub (c :: rest) || has_sub sub rest

/-- Model of the test `re.match(r'.*\.yml(@.*)$', pattern)` of source line 135.
On newline-free inputs this regex holds exactly of the strings that contain
the five characters `.yml@` somewhere; `.` is modelled as matching any
character. -/
def is_workflow_pattern (pattern : String) : Bool :=
  has_sub (String.toList ".yml@") pattern.toList

/-- Removal of the first occurrence of `x`, mirroring `list.remove(x)`. -/
def remove_first (x : String) : List String → List String
  | [] => []
  | y :: ys => if y = x then ys else y :: remove_first x ys

/-- Model of the loop of source lines 134-137, which removes elements from the
very list being iterated. CPython list iteration is by index: each step reads
the element at index `i` of the current list and increments `i`, so a removal
shifts the remaining elements left and the element after a removed one is
skipped. The loop stops once `i` reaches the current length. `fuel` only
bounds the number of iterations; since `i` grows by one per iteration and the
length never grows, `initial length - i` iterations always suffice, so with
`fuel = initial length` the fuel never runs out before the index test stops
the loop (see `purge_loop_fuel_irrel`). -/
def purge_loop (fuel : Nat) (patterns : List String) (i : Nat) : List String :=
  match fuel with
  | 0 => patterns
  | fuel' + 1 =>
    if h : i < patterns.length then
      if is_workflow_pattern (patterns.get ⟨i, h⟩) then
        purge_loop fuel' (remove_first (patterns.get ⟨i, h⟩) patterns) (i + 1)
      else purge_loop fuel' patterns (i + 1)
    else patterns

/-- Model of `get_allowed_actions` (source lines 126-142) after the fetch: the
`patterns_allowed` list of the response with the reusable-workflow purge loop
applied. -/
def get_allowed_actions (patterns_allowed : List String) : List String :=
  purge_loop patterns_allowed.length patterns_allowed 0

/-- Glob matching as performed by `fnmatch.fnmatch` on POSIX for patterns made
of literal characters, `?` (any one character) and `*` (any sequence, drawn
as any suffix continuation); bracket character classes are outside the
modelled fragment and their characters are treated as literals. -/
def glob : List Char → List Char → Bool
  | [], s => s.isEmpty
  | p :: ps, s =>
    if p = '*' then s.tails.any (fun suf => glob ps suf)
    else
      match s with
      | [] => false
      | c :: s' => (p == '?' || p == c) && glob ps s'

/-- Model of `fnmatch(action, pattern)` from source line 154. -/
def fnmatch (action pattern : String) : Bool :=
  glob pattern.toList action.toList

/-- Inner loop of `compare_allowed_actions` (source lines 152-156): does the
pattern match any action name key of the table. -/
def pattern_matches (actions_versions : Table) (pattern : String) : Bool :=
  actions_versions.any (fun p => fnmatch p.1 pattern)

/-- Header line written to the unused-pattern report (source line 149). -/
def report_header : String :=
  "Allowed actions patterns that do not *seem* to match any used actions:\n"

/-- Model of `compare_allowed_actions` (source lines 144-160): returns the
final `matching_patterns` counter and the list of strings written to the
report file. The path substitution and the summary prints are not modelled. -/
def compare_allowed_actions (allowed_actions_patterns : List String)
    (actions_versions : Table) : Nat × List String :=
  allowed_actions_patterns.foldl
    (fun acc pattern =>
      if pattern_matches actions_versions pattern then (acc.1 + 1, acc.2)
      else (acc.1, acc.2 ++ [pattern ++ "\n"]))
    (0, [report_header])

/-- Observable events of `load_reports`: an error print, closing either input
stream, terminating the process, or returning normally. -/
inductive LoadEv where
  | print_msg (msg : String)
  | close_report
  | close_unique
  | exit_code (code : Nat)
  | ret
deriving DecidableEq, Repr

/-- Error line printed by `load_reports` on a JSON parse failure. -/
def load_error_msg (e : String) : String :=
  "Error occurred while loading reports: " ++ e

/-- Model of `load_reports` (source lines 49-59). The parses of the two
streams are given as `Except` values (`error` models a `JSONDecodeError`
whose message is the payload). The result is the returned pair, if any, with
the ordered event trace: the second stream is only parsed when the first
succeeds; on a parse error the handler prints and calls `sys.exit(1)`, whose
`SystemExit` passes through the `finally` block, so both files are closed
after the print and before the process terminates; on success the `finally`
block closes both files before the function returns. -/
def load_reports {α β : Type} (p1 : Except String α) (p2 : Except String β) :
    Option (α × β) × List LoadEv :=
  match p1 with
  | .error e =>
    (none, [.print_msg (load_error_msg e), .close_report, .close_unique, .exit_code 1])
  | .ok a =>
    match p2 with
    | .error e =>
      (none, [.print_msg (load_error_msg e), .close_report, .close_unique, .exit_code 1])
    | .ok b => (some (a, b), [.close_report, .close_unique, .ret])

/-- Frame relation used for `get_repo_usage`: same action keys in the same
order, unchanged latest releases, same version keys in the same order, and
every usage list extended only at its end. -/
def table_extends (t t' : Table) : Prop :=
  t'.map Prod.fst = t.map Prod.fst ∧
  ∀ n e, lookupKey n t = some e →
    ∃ e', lookupKey n t' = some e' ∧
      e'.latest_release = e.latest_release ∧
      e'.versions_used_in_repos.map Prod.fst = e.versions_used_in_repos.map Prod.fst ∧
      ∀ v repos, lookupKey v e.versions_used_in_repos = some repos →
        ∃ added, lookupKey v e'.versions_used_in_repos = some (repos ++ added)

/-! ## Generic lemmas about the helper functions -/

theorem foldOpt_nil {σ α : Type} (f : σ → α → Option σ) (s : σ) :
    foldOpt f s [] = some s := rfl

theorem foldOpt_cons_none {σ α : Type} (f : σ → α → Option σ) {s : σ} {a : α}
    (l : List α) (h : f s a = none) : foldOpt f s (a :: l) = none := by
  simp [foldOpt, h]

theorem foldOpt_cons_some {σ α : Type} (f : σ → α → Option σ) {s s₁ : σ} {a : α}
    (l : List α) (h : f s a = some s₁) : foldOpt f s (a :: l) = foldOpt f s₁ l := by
  simp [foldOpt, h]

theorem foldOpt_inv {σ α : Type} (P : σ → Prop) (f : σ → α → Option σ)
    (hstep : ∀ s a s', P s → f s a = some s' → P s') :
    ∀ (l : List α) (s s' : σ), foldOpt f s l = some s' → P s → P s' := by
  intro l
  induction l with
  | nil => intro s s' h hP; rw [foldOpt_nil] at h; cases h; exact hP
  | cons a l ih =>
    intro s s' h hP
    cases hfa : f s a with
    | none => rw [foldOpt_cons_none f l hfa] at h; cases h
    | some s₁ =>
      rw [foldOpt_cons_some f l hfa] at h
      exact ih s₁ s' h (hstep s a s₁ hP hfa)

theorem foldOpt_inv_pre {σ α : Type} (Q : List α → σ → Prop) (f : σ → α → Option σ)
    (hstep : ∀ pre s a s', Q pre s → f s a = some s' → Q (pre ++ [a]) s') :
    ∀ (l pre : List α) (s s' : σ), foldOpt f s l = some s' → Q pre s → Q (pre ++ l) s' := by
  intro l
  induction l with
  | nil => intro pre s s' h hQ; rw [foldOpt_nil] at h; cases h; simpa using hQ
  | cons a l ih =>
    intro pre s s' h hQ
    cases hfa : f s a with
    | none => rw [foldOpt_cons_none f l hfa] at h; cases h
    | some s₁ =>
      rw [foldOpt_cons_some f l hfa] at h
      have := ih (pre ++ [a]) s₁ s' h (hstep pre s a s₁ hQ hfa)
      simpa [List.append_assoc] using this

theorem foldOpt_isSome {σ α : Type} (f : σ → α → Option σ) :
    ∀ (l : List α), (∀ a ∈ l, ∀ s, (f s a).isSome = true) →
      ∀ s, (foldOpt f s l).isSome = true := by
  intro l
  induction l with
  | nil => intro _ s; rw [foldOpt_nil]; rfl
  | cons a l ih =>
    intro h s
    cases hfa : f s a with
    | none => have := h a (by simp) s; rw [hfa] at this; cases this
    | some s₁ =>
      rw [foldOpt_cons_some f l hfa]
      exact ih (fun a' ha' s' => h a' (by simp [ha']) s') s₁

theorem lookupKey_updateAssoc {β : Type} (k k' : String) (f : β → β)
    (l : List (String × β)) :
    lookupKey k' (updateAssoc k f l) =
      if k' = k then (lookupKey k l).map f else lookupKey k' l := by
  induction l with
  | nil => by_cases h : k' = k <;> simp [lookupKey, updateAssoc, h]
  | cons p ps ih =>
    simp only [updateAssoc] at ih ⊢
    by_cases hk' : k' = k
    · subst hk'
      by_cases hk : p.1 = k'
      · simp [lookupKey, hk]
      · simp [lookupKey, hk, ih]
    · by_cases hk : p.1 = k
      · have hne : ¬p.1 = k' := by rw [hk]; exact fun hh => hk' hh.symm
        have hne' : ¬k = k' := fun hh => hk' hh.symm
        simp [lookupKey, hk, hne, hne', hk', ih]
      · by_cases hpk' : p.1 = k'
        · simp [lookupKey, hk, hpk', hk']
        · simp [lookupKey, hk, hpk', hk', ih]

theorem lookupKey_append {β : Type} (k : String) (l₁ l₂ : List (String × β)) :
    lookupKey k (l₁ ++ l₂) =
      match lookupKey k l₁ with
      | some b => some b
      | none => lookupKey k l₂ := by
  induction l₁ with
  | nil => simp [lookupKey]
  | cons p ps ih => by_cases h : p.1 = k <;> simp [lookupKey, h, ih]

theorem map_fst_updateAssoc {β : Type} (k : String) (f : β → β) (l : List (String × β)) :
    (updateAssoc k f l).map Prod.fst = l.map Prod.fst := by
  induction l with
  | nil => rfl
  | cons p ps ih =>
    by_cases h : p.1 = k <;> simp only [updateAssoc, List.map_cons] at * <;> simp [h, ih]

theorem mem_updateAssoc {β : Type} {k : String} {f : β → β} {l : List (String × β)}
    {p : String × β} (h : p ∈ updateAssoc k f l) :
    p ∈ l ∨ ∃ q, q ∈ l ∧ q.1 = k ∧ p = (q.1, f q.2) := by
  simp only [updateAssoc, List.mem_map] at h
  obtain ⟨q, hq, hqe⟩ := h
  by_cases hk : q.1 = k
  · right
    refine ⟨q, hq, hk, ?_⟩
    rw [if_pos hk] at hqe
    exact hqe.symm
  · left
    rw [if_neg hk] at hqe
    exact hqe ▸ hq

/-! ## The splitting of action references (claim C7) -/

theorem splitOnChar_ne_nil (sep : Char) (l : List Char) : splitOnChar sep l ≠ [] := by
  induction l with
  | nil => simp [splitOnChar]
  | cons c cs ih =>
    by_cases h : c = sep
    · simp [splitOnChar, h]
    · simp only [splitOnChar, if_neg h]
      cases hs : splitOnChar sep cs with
      | nil => simp
      | cons hd tl => simp

theorem splitOnChar_length (sep : Char) (l : List Char) :
    (splitOnChar sep l).length = l.count sep + 1 := by
  induction l with
  | nil => simp [splitOnChar]
  | cons c cs ih =>
    by_cases h : c = sep
    · simp [splitOnChar, h, ih, List.count_cons]
    · simp only [splitOnChar, if_neg h]
      cases hs : splitOnChar sep cs with
      | nil => exact absurd hs (splitOnChar_ne_nil sep cs)
      | cons hd tl =>
        rw [hs] at ih
        simp only [List.length_cons] at ih ⊢
        simp [List.count_cons, h, ih]

theorem splitOnChar_singleton (sep : Char) :
    ∀ l x, splitOnChar sep l = [x] → x = l := by
  intro l
  induction l with
  | nil => intro x h; simp [splitOnChar] at h; simp_all
  | cons c cs ih =>
    intro x h
    by_cases hc : c = sep
    · rw [splitOnChar, if_pos hc] at h
      simp only [List.cons.injEq] at h
      exact absurd h.2 (splitOnChar_ne_nil sep cs)
    · rw [splitOnChar, if_neg hc] at h
      cases hs : splitOnChar sep cs with
      | nil => exact absurd hs (splitOnChar_ne_nil sep cs)
      | cons hd tl =>
        rw [hs] at h
        simp only [List.cons.injEq] at h
        have := ih hd (by rw [hs, h.2])
        rw [← h.1, this]

theorem splitOnChar_pair (sep : Char) :
    ∀ l a b, splitOnChar sep l = [a, b] → a ++ sep :: b = l := by
  intro l
  induction l with
  | nil => intro a b h; simp [splitOnChar] at h
  | cons c cs ih =>
    intro a b h
    by_cases hc : c = sep
    · rw [splitOnChar, if_pos hc] at h
      simp only [List.cons.injEq] at h
      have := splitOnChar_singleton sep cs b h.2
      rw [← h.1, this, hc]
      rfl
    · rw [splitOnChar, if_neg hc] at h
      cases hs : splitOnChar sep cs with
      | nil => exact absurd hs (splitOnChar_ne_nil sep cs)
      | cons hd tl =>
        rw [hs] at h
        simp only [List.cons.injEq] at h
        have htl : splitOnChar sep cs = [hd, b] := by rw [hs, h.2]
        have := ih hd b htl
        rw [← h.1, ← this]
        rfl

theorem string_data_append (s t : String) : (s ++ t).data = s.data ++ t.data := by
  cases s; cases t; rfl

theorem asString_data (l : List Char) : l.asString.data = l := rfl

theorem string_eq_of_data_eq {s t : String} (h : s.data = t.data) : s = t := by
  cases s with
  | mk d1 =>
    cases t with
    | mk d2 => exact congrArg String.mk h

theorem split_action_eq (action : String) :
    split_action action =
      match splitOnChar '@' action.toList with
      | [a, b] => some (a.asString, b.asString)
      | _ => none := rfl

/-- Claim C7: for every action-reference string containing exactly one
separator, `split_action` returns a name and version whose re-join with the
separator reproduces the input. -/
theorem claim_C7 (action : String) (h : action.toList.count '@' = 1) :
    ∃ action_name version,
      split_action action = some (action_name, version) ∧
      action_name ++ "@" ++ version = action := by
  have hlen : (splitOnChar '@' action.toList).length = 2 := by
    rw [splitOnChar_length, h]
  cases hs : splitOnChar '@' action.toList with
  | nil => rw [hs] at hlen; simp at hlen
  | cons a r =>
    cases r with
    | nil => rw [hs] at hlen; simp at hlen
    | cons b r₂ =>
      cases r₂ with
      | cons x r₃ => rw [hs] at hlen; simp at hlen
      | nil =>
        refine ⟨a.asString, b.asString, ?_, ?_⟩
        · rw [split_action_eq, hs]
        · apply string_eq_of_data_eq
          have hp := splitOnChar_pair '@' action.toList a b hs
          rw [string_data_append, string_data_append, asString_data, asString_data,
            show ("@" : String).data = ['@'] by decide, List.append_assoc,
            List.singleton_append, show action.data = action.toList from rfl]
          exact hp

/-- Witness for claim C7 at the concrete reference string a/b@v1. -/
theorem claim_C7_witness :
    ("a/b@v1" : String).toList.count '@' = 1 ∧
    ∃ action_name version,
      split_action "a/b@v1" = some (action_name, version) ∧
      action_name ++ "@" ++ version = "a/b@v1" :=
  ⟨by decide, claim_C7 "a/b@v1" (by decide)⟩

/-! ## Lemmas about recording versions (claims C2 and C6) -/

theorem mem_add_version {inc : Bool} {tag v : String} {vs : List (String × List String)}
    {p : String × List String} (h : p ∈ add_version inc tag v vs) :
    p ∈ vs ∨ (p = (v, []) ∧ (inc = false → v ≠ tag)) := by
  unfold add_version at h
  split at h
  · exact Or.inl h
  · split at h
    · exact Or.inl h
    · next hc =>
      rcases List.mem_append.mp h with h' | h'
      · exact Or.inl h'
      · right
        refine ⟨by simpa using h', ?_⟩
        intro hinc heq
        exact hc (by simp [hinc, heq])

theorem add_version_lookup_mono {inc : Bool} {tag v w : String}
    {vs : List (String × List String)} (h : (lookupKey w vs).isSome = true) :
    (lookupKey w (add_version inc tag v vs)).isSome = true := by
  unfold add_version
  split
  · exact h
  · split
    · exact h
    · rw [lookupKey_append]
      obtain ⟨x, hx⟩ := Option.isSome_iff_exists.mp h
      rw [hx]
      rfl

theorem add_version_lookup_self {tag v : String} {vs : List (String × List String)} :
    (lookupKey v (add_version true tag v vs)).isSome = true := by
  unfold add_version
  cases hl : lookupKey v vs with
  | some x => simp [hl]
  | none => simp [hl, lookupKey_append, lookupKey]

theorem gav_step_malformed {latest : String → Option String} {inc : Bool}
    {st : Table × List String} {action : String}
    (hsa : split_action action = none) : gav_step latest inc st action = none := by
  simp only [gav_step, hsa]

theorem gav_step_existing {latest : String → Option String} {inc : Bool}
    {st : Table × List String} {action action_name version : String} {e : ActionEntry}
    (hsa : split_action action = some (action_name, version))
    (hl : lookupKey action_name st.1 = some e) :
    gav_step latest inc st action = some
      (updateAssoc action_name
        (fun e' => { e' with
          versions_used_in_repos :=
            add_version inc e'.latest_release version e'.versions_used_in_repos }) st.1,
        st.2) := by
  simp only [gav_step, hsa, hl]

theorem gav_step_drop {latest : String → Option String} {inc : Bool}
    {st : Table × List String} {action action_name version : String}
    (hsa : split_action action = some (action_name, version))
    (hl : lookupKey action_name st.1 = none)
    (hlat : latest action_name = none) :
    gav_step latest inc st action =
      some (st.1, st.2 ++ [fetch_msg action_name, no_release_msg action_name]) := by
  simp only [gav_step, hsa, hl, hlat]

theorem gav_step_new {latest : String → Option String} {inc : Bool}
    {st : Table × List String} {action action_name version tag : String}
    (hsa : split_action action = some (action_name, version))
    (hl : lookupKey action_name st.1 = none)
    (hlat : latest action_name = some tag) :
    gav_step latest inc st action =
      some (st.1 ++ [(action_name, ⟨tag, add_version inc tag version []⟩)],
        st.2 ++ [fetch_msg action_name]) := by
  simp only [gav_step, hsa, hl, hlat]

theorem gav_step_split_isSome {latest : String → Option String} {inc : Bool}
    {st st' : Table × List String} {action : String}
    (hstep : gav_step latest inc st action = some st') :
    ∃ action_name version, split_action action = some (action_name, version) := by
  cases hsa : split_action action with
  | none => rw [gav_step_malformed hsa] at hstep; cases hstep
  | some nv =>
    obtain ⟨n₁, v₁⟩ := nv
    exact ⟨n₁, v₁, rfl⟩

theorem gav_step_isSome {latest : String → Option String} {inc : Bool}
    {st : Table × List String} {action : String}
    (h : (split_action action).isSome = true) :
    (gav_step latest inc st action).isSome = true := by
  obtain ⟨⟨n, v⟩, hsa⟩ := Option.isSome_iff_exists.mp h
  cases hl : lookupKey n st.1 with
  | some e => rw [gav_step_existing hsa hl]; rfl
  | none =>
    cases hlat : latest n with
    | none => rw [gav_step_drop hsa hl hlat]; rfl
    | some tag => rw [gav_step_new hsa hl hlat]; rfl

theorem gav_outdated_inv {latest : String → Option String} {st st' : Table × List String}
    {action : String} (hstep : gav_step latest false st action = some st')
    (hP : ∀ n e, lookupKey n st.1 = some e →
      ∀ p ∈ e.versions_used_in_repos, p.1 ≠ e.latest_release) :
    ∀ n e, lookupKey n st'.1 = some e →
      ∀ p ∈ e.versions_used_in_repos, p.1 ≠ e.latest_release := by
  obtain ⟨m, w, hsa⟩ := gav_step_split_isSome hstep
  cases hl : lookupKey m st.1 with
  | some e0 =>
    rw [gav_step_existing hsa hl] at hstep
    cases hstep
    intro n e hln p hp
    rw [lookupKey_updateAssoc] at hln
    by_cases hnm : n = m
    · rw [if_pos hnm, hl, Option.map_some'] at hln
      cases hln
      have hp' : p ∈ add_version false e0.latest_release w e0.versions_used_in_repos := hp
      rcases mem_add_version hp' with hin | ⟨hpe, hne⟩
      · exact hP m e0 hl p hin
      · rw [hpe]
        exact hne rfl
    · rw [if_neg hnm] at hln
      exact hP n e hln p hp
  | none =>
    cases hlat : latest m with
    | none =>
      rw [gav_step_drop hsa hl hlat] at hstep
      cases hstep
      exact hP
    | some tag =>
      rw [gav_step_new hsa hl hlat] at hstep
      cases hstep
      intro n e hln p hp
      rw [lookupKey_append] at hln
      cases hl2 : lookupKey n st.1 with
      | some e1 =>
        rw [hl2] at hln
        have hln' : some e1 = some e := hln
        cases hln'
        exact hP n _ hl2 p hp
      | none =>
        rw [hl2] at hln
        have hln' : lookupKey n
            [(m, (⟨tag, add_version false tag w []⟩ : ActionEntry))] = some e := hln
        by_cases hmn : m = n
        · simp only [lookupKey, if_pos hmn] at hln'
          cases hln'
          have hp' : p ∈ add_version false tag w [] := hp
          rcases mem_add_version hp' with h0 | ⟨hpe, hne⟩
          · exact absurd h0 (List.not_mem_nil p)
          · rw [hpe]
            exact hne rfl
        · simp [lookupKey, hmn] at hln'

theorem gav_complete_inv {latest : String → Option String} {pre : List String}
    {st st' : Table × List String} {action : String}
    (hstep : gav_step latest true st action = some st')
    (hQ : ∀ r ∈ pre, ∀ n v, split_action r = some (n, v) →
      (lookupKey n st.1 = none → latest n = none) ∧
      (∀ e, lookupKey n st.1 = some e →
        (lookupKey v e.versions_used_in_repos).isSome = true)) :
    ∀ r ∈ pre ++ [action], ∀ n v, split_action r = some (n, v) →
      (lookupKey n st'.1 = none → latest n = none) ∧
      (∀ e, lookupKey n st'.1 = some e →
        (lookupKey v e.versions_used_in_repos).isSome = true) := by
  obtain ⟨m, w, hsa⟩ := gav_step_split_isSome hstep
  intro r hr n v hsr
  rcases List.mem_append.mp hr with hold | hnew
  case inr =>
    -- the freshly processed reference
    have hra : r = action := by simpa using hnew
    subst hra
    have h0 := hsa.symm.trans hsr
    injection h0 with h0'
    have hmn1 : m = n := congrArg Prod.fst h0'
    have hmn2 : w = v := congrArg Prod.snd h0'
    subst hmn1
    subst hmn2
    cases hl : lookupKey m st.1 with
    | some e0 =>
      rw [gav_step_existing hsa hl] at hstep
      cases hstep
      constructor
      · intro hc
        rw [lookupKey_updateAssoc, if_pos rfl, hl, Option.map_some'] at hc
        cases hc
      · intro e he
        rw [lookupKey_updateAssoc, if_pos rfl, hl, Option.map_some'] at he
        cases he
        show (lookupKey w
          (add_version true e0.latest_release w e0.versions_used_in_repos)).isSome = true
        exact add_version_lookup_self
    | none =>
      cases hlat : latest m with
      | none =>
        rw [gav_step_drop hsa hl hlat] at hstep
        cases hstep
        refine ⟨fun _ => rfl, fun e he => ?_⟩
        rw [hl] at he
        cases he
      | some tag =>
        rw [gav_step_new hsa hl hlat] at hstep
        cases hstep
        constructor
        · intro hc
          rw [lookupKey_append, hl] at hc
          simp [lookupKey] at hc
        · intro e he
          rw [lookupKey_append, hl] at he
          have he2 : some (⟨tag, add_version true tag w []⟩ : ActionEntry) = some e := by
            simpa [lookupKey] using he
          cases he2
          show (lookupKey w (add_version true tag w [])).isSome = true
          exact add_version_lookup_self
  case inl =>
    have hQr := hQ r hold n v hsr
    cases hl : lookupKey m st.1 with
    | some e0 =>
      rw [gav_step_existing hsa hl] at hstep
      cases hstep
      constructor
      · intro hc
        rw [lookupKey_updateAssoc] at hc
        by_cases hnm : n = m
        · rw [if_pos hnm, hl, Option.map_some'] at hc
          cases hc
        · rw [if_neg hnm] at hc
          exact hQr.1 hc
      · intro e he
        rw [lookupKey_updateAssoc] at he
        by_cases hnm : n = m
        · rw [if_pos hnm, hl, Option.map_some'] at he
          cases he
          have hv := hQr.2 e0 (by rw [hnm]; exact hl)
          show (lookupKey v
            (add_version true e0.latest_release w e0.versions_used_in_repos)).isSome = true
          exact add_version_lookup_mono hv
        · rw [if_neg hnm] at he
          exact hQr.2 e he
    | none =>
      cases hlat : latest m with
      | none =>
        rw [gav_step_drop hsa hl hlat] at hstep
        cases hstep
        exact hQr
      | some tag =>
        rw [gav_step_new hsa hl hlat] at hstep
        cases hstep
        constructor
        · intro hc
          rw [lookupKey_append] at hc
          cases hl2 : lookupKey n st.1 with
          | some e1 => rw [hl2] at hc; cases hc
          | none => exact hQr.1 hl2
        · intro e he
          rw [lookupKey_append] at he
          cases hl2 : lookupKey n st.1 with
          | some e1 =>
            rw [hl2] at he
            have he' : some e1 = some e := he
            cases he'
            exact hQr.2 _ hl2
          | none =>
            rw [hl2] at he
            have hlatn := hQr.1 hl2
            by_cases hmn : m = n
            · rw [hmn] at hlat
              rw [hlat] at hlatn
              cases hlatn
            · have he' : lookupKey n
                  [(m, (⟨tag, add_version true tag w []⟩ : ActionEntry))] = some e := he
              simp [lookupKey, hmn] at he'

/-- Claim C2: with the include-up-to-date flag unset, no version string equal
to its action's latest release tag is a key of the produced
`versions_used_in_repos` mapping; with the flag set, every version occurring
for an action present in the table is a key. Equality of versions is exact
string equality. -/
theorem claim_C2 (latest : String → Option String) (unique_actions : List String)
    (include_up_to_date : Bool) (t : Table) (log : List String)
    (h : get_actions_versions latest unique_actions include_up_to_date = some (t, log)) :
    (include_up_to_date = false → ∀ action_name e, lookupKey action_name t = some e →
      ∀ p ∈ e.versions_used_in_repos, p.1 ≠ e.latest_release) ∧
    (include_up_to_date = true → ∀ r ∈ unique_actions, ∀ action_name version,
      split_action r = some (action_name, version) →
      ∀ e, lookupKey action_name t = some e →
      (lookupKey version e.versions_used_in_repos).isSome = true) := by
  constructor
  · rintro rfl
    exact foldOpt_inv
      (fun st : Table × List String => ∀ n e, lookupKey n st.1 = some e →
        ∀ p ∈ e.versions_used_in_repos, p.1 ≠ e.latest_release)
      (gav_step latest false)
      (fun s a s' hP hstep => gav_outdated_inv hstep hP)
      unique_actions ([], [fetch_start_msg]) (t, log) h
      (by intro n e hln; cases hln)
  · rintro rfl
    intro r hr action_name version hsr e hle
    have hq := foldOpt_inv_pre
      (fun pre (st : Table × List String) =>
        ∀ r' ∈ pre, ∀ n v, split_action r' = some (n, v) →
          (lookupKey n st.1 = none → latest n = none) ∧
          (∀ e', lookupKey n st.1 = some e' →
            (lookupKey v e'.versions_used_in_repos).isSome = true))
      (gav_step latest true)
      (fun pre s a s' hQ hstep => gav_complete_inv hstep hQ)
      unique_actions [] ([], [fetch_start_msg]) (t, log) h
      (by intro r' hr'; cases hr')
    exact (hq r (by simpa using hr) action_name version hsr).2 e hle

/-- Witness for claim C2: on the concrete run of the end-to-end example the
recorded version v1 differs from the latest release v2. -/
theorem claim_C2_witness :
    get_actions_versions (fun n => if n = "a/b" then some "v2" else none)
      ["a/b@v1", "a/b@v2"] false =
      some ([("a/b", ⟨"v2", [("v1", [])]⟩)], [fetch_start_msg, fetch_msg "a/b"]) ∧
    ("v1", ([] : List String)).1 ≠ ("v2" : String) := by
  have happ := claim_C2 (fun n => if n = "a/b" then some "v2" else none)
    ["a/b@v1", "a/b@v2"] false [("a/b", ⟨"v2", [("v1", [])]⟩)]
    [fetch_start_msg, fetch_msg "a/b"] (by decide)
  exact ⟨by decide,
    happ.1 rfl "a/b" ⟨"v2", [("v1", [])]⟩ (by decide) ("v1", []) (by decide)⟩

theorem gav_absent_inv {latest : String → Option String} {inc : Bool} {action_name : String}
    (hlat : latest action_name = none) {st st' : Table × List String} {action : String}
    (hstep : gav_step latest inc st action = some st')
    (hP : lookupKey action_name st.1 = none) : lookupKey action_name st'.1 = none := by
  obtain ⟨m, w, hsa⟩ := gav_step_split_isSome hstep
  cases hl : lookupKey m st.1 with
  | some e0 =>
    rw [gav_step_existing hsa hl] at hstep
    cases hstep
    rw [lookupKey_updateAssoc]
    by_cases hnm : action_name = m
    · rw [if_pos hnm, ← hnm, hP]
      rfl
    · rw [if_neg hnm]
      exact hP
  | none =>
    cases hlat2 : latest m with
    | none =>
      rw [gav_step_drop hsa hl hlat2] at hstep
      cases hstep
      exact hP
    | some tag =>
      rw [gav_step_new hsa hl hlat2] at hstep
      cases hstep
      rw [lookupKey_append, hP]
      have hnm : ¬m = action_name := by
        intro hmn
        rw [hmn, hlat] at hlat2
        cases hlat2
      simp [lookupKey, hnm]

theorem gav_warn_inv {latest : String → Option String} {inc : Bool} {action_name : String}
    (hlat : latest action_name = none) {pre : List String} {st st' : Table × List String}
    {action : String} (hstep : gav_step latest inc st action = some st')
    (hQ : lookupKey action_name st.1 = none ∧
      ((∃ r ∈ pre, ∃ v, split_action r = some (action_name, v)) →
        no_release_msg action_name ∈ st.2)) :
    lookupKey action_name st'.1 = none ∧
    ((∃ r ∈ pre ++ [action], ∃ v, split_action r = some (action_name, v)) →
      no_release_msg action_name ∈ st'.2) := by
  refine ⟨gav_absent_inv hlat hstep hQ.1, ?_⟩
  rintro ⟨r, hr, v, hsr⟩
  obtain ⟨m, w, hsa⟩ := gav_step_split_isSome hstep
  rcases List.mem_append.mp hr with hold | hnew
  · have hmem := hQ.2 ⟨r, hold, v, hsr⟩
    cases hl : lookupKey m st.1 with
    | some e0 =>
      rw [gav_step_existing hsa hl] at hstep
      cases hstep
      exact hmem
    | none =>
      cases hlat2 : latest m with
      | none =>
        rw [gav_step_drop hsa hl hlat2] at hstep
        cases hstep
        exact List.mem_append_left _ hmem
      | some tag =>
        rw [gav_step_new hsa hl hlat2] at hstep
        cases hstep
        exact List.mem_append_left _ hmem
  · have hra : r = action := by simpa using hnew
    subst hra
    have h0 := hsa.symm.trans hsr
    injection h0 with h0'
    have hm : m = action_name := congrArg Prod.fst h0'
    have hlmn : lookupKey m st.1 = none := by rw [hm]; exact hQ.1
    have hlatm : latest m = none := by rw [hm]; exact hlat
    rw [gav_step_drop hsa hlmn hlatm] at hstep
    cases hstep
    refine List.mem_append_right _ ?_
    rw [hm]
    simp

theorem gav_origin_inv {latest : String → Option String} {inc : Bool}
    {st st' : Table × List String} {action : String}
    (hstep : gav_step latest inc st action = some st')
    (hP : ∀ p ∈ st.1, ∃ tag, latest p.1 = some tag ∧ p.2.latest_release = tag) :
    ∀ p ∈ st'.1, ∃ tag, latest p.1 = some tag ∧ p.2.latest_release = tag := by
  obtain ⟨m, w, hsa⟩ := gav_step_split_isSome hstep
  cases hl : lookupKey m st.1 with
  | some e0 =>
    rw [gav_step_existing hsa hl] at hstep
    cases hstep
    intro p hp
    have hp' : p ∈ updateAssoc m
        (fun e' => { e' with
          versions_used_in_repos :=
            add_version inc e'.latest_release w e'.versions_used_in_repos }) st.1 := hp
    rcases mem_updateAssoc hp' with hin | ⟨q, hq, hqk, hpe⟩
    · exact hP p hin
    · obtain ⟨tag, htag, hrel⟩ := hP q hq
      subst hpe
      exact ⟨tag, htag, hrel⟩
  | none =>
    cases hlat2 : latest m with
    | none =>
      rw [gav_step_drop hsa hl hlat2] at hstep
      cases hstep
      exact hP
    | some tag =>
      rw [gav_step_new hsa hl hlat2] at hstep
      cases hstep
      intro p hp
      have hp' : p ∈ st.1 ++ [(m, (⟨tag, add_version inc tag w []⟩ : ActionEntry))] := hp
      rcases List.mem_append.mp hp' with hin | hnew
      · exact hP p hin
      · have hpe : p = (m, (⟨tag, add_version inc tag w []⟩ : ActionEntry)) := by
          simpa using hnew
        subst hpe
        exact ⟨tag, hlat2, rfl⟩

/-- Claim C6: when the fetched response for an action lacks the release tag,
the resolver logs the warning, leaves that action out of the table entirely,
and keeps processing; every action present in the table carries the latest
release tag of a successful fetch. -/
theorem claim_C6 (latest : String → Option String) (unique_actions : List String)
    (include_up_to_date : Bool) (action_name : String)
    (hnone : latest action_name = none) :
    (∀ t log, get_actions_versions latest unique_actions include_up_to_date = some (t, log) →
      lookupKey action_name t = none ∧
      ((∃ r ∈ unique_actions, ∃ v, split_action r = some (action_name, v)) →
        no_release_msg action_name ∈ log) ∧
      (∀ p ∈ t, ∃ tag, latest p.1 = some tag ∧ p.2.latest_release = tag)) ∧
    ((∀ r ∈ unique_actions, (split_action r).isSome = true) →
      (get_actions_versions latest unique_actions include_up_to_date).isSome = true) := by
  constructor
  · intro t log h
    have hwarn := foldOpt_inv_pre
      (fun pre (st : Table × List String) =>
        lookupKey action_name st.1 = none ∧
        ((∃ r ∈ pre, ∃ v, split_action r = some (action_name, v)) →
          no_release_msg action_name ∈ st.2))
      (gav_step latest include_up_to_date)
      (fun pre s a s' hQ hstep => gav_warn_inv hnone hstep hQ)
      unique_actions [] ([], [fetch_start_msg]) (t, log) h
      (by
        refine ⟨rfl, ?_⟩
        rintro ⟨r, hr, _⟩
        cases hr)
    have horig := foldOpt_inv
      (fun st : Table × List String =>
        ∀ p ∈ st.1, ∃ tag, latest p.1 = some tag ∧ p.2.latest_release = tag)
      (gav_step latest include_up_to_date)
      (fun s a s' hP hstep => gav_origin_inv hstep hP)
      unique_actions ([], [fetch_start_msg]) (t, log) h
      (by intro p hp; cases hp)
    refine ⟨hwarn.1, ?_, horig⟩
    intro hex
    exact hwarn.2 (by simpa using hex)
  · intro hall
    exact foldOpt_isSome (gav_step latest include_up_to_date) unique_actions
      (fun a ha s => gav_step_isSome (hall a ha)) ([], [fetch_start_msg])

/-- Witness for claim C6: a run where every fetch lacks a release tag drops
the action, logs the warning and still returns normally. -/
theorem claim_C6_witness :
    lookupKey "a/b" ([] : Table) = none ∧
    no_release_msg "a/b" ∈ [fetch_start_msg, fetch_msg "a/b", no_release_msg "a/b"] ∧
    (get_actions_versions (fun _ => none) ["a/b@v1"] false).isSome = true := by
  have happ := claim_C6 (fun _ => none) ["a/b@v1"] false "a/b" rfl
  have h1 := happ.1 [] [fetch_start_msg, fetch_msg "a/b", no_release_msg "a/b"] (by decide)
  refine ⟨h1.1, h1.2.1 ⟨"a/b@v1", by decide, "v1", by decide⟩, happ.2 ?_⟩
  intro r hr
  have hr' : r = "a/b@v1" := by simpa using hr
  rw [hr']
  decide

/-! ## Lemmas about usage aggregation (claims C4 and C10) -/

theorem use_step_skip {o : String} {r : RepoRecord} {action action_name version : String}
    (hsa : split_action action = some (action_name, version))
    (hne : o ≠ "") (hown : r.owner ≠ o) (t : Table) :
    use_step (some o) r t action = some t := by
  have hoe : o.isEmpty = false := by
    cases hoo : o.isEmpty with
    | false => rfl
    | true => exact absurd ((String.isEmpty_iff o).mp hoo) hne
  have hc : (!o.isEmpty && r.owner != o) = true := by
    rw [hoe]
    simp [hown]
  simp only [use_step, hsa, hc, if_true]

theorem use_step_app_none {r : RepoRecord} {action action_name version : String}
    (hsa : split_action action = some (action_name, version)) (t : Table) :
    use_step none r t action =
      some (append_usage t action_name version (r.owner ++ "/" ++ r.repo)) := by
  simp only [use_step, hsa]

theorem use_step_app_some {o : String} {r : RepoRecord} {action action_name version : String}
    (hsa : split_action action = some (action_name, version))
    (hc : (!o.isEmpty && r.owner != o) = false) (t : Table) :
    use_step (some o) r t action =
      some (append_usage t action_name version (r.owner ++ "/" ++ r.repo)) := by
  simp only [use_step, hsa, hc, Bool.false_eq_true, if_false]

theorem append_usage_absent {t : Table} {action_name version repo_id : String}
    (h : lookupKey action_name t = none ∨
      ∃ e, lookupKey action_name t = some e ∧
        lookupKey version e.versions_used_in_repos = none) :
    append_usage t action_name version repo_id = t := by
  rcases h with h | ⟨e, he, hv⟩
  · simp only [append_usage, h]
  · simp only [append_usage, he, hv]

theorem append_usage_present {t : Table} {action_name version repo_id : String}
    {e : ActionEntry} {repos : List String}
    (he : lookupKey action_name t = some e)
    (hv : lookupKey version e.versions_used_in_repos = some repos) :
    append_usage t action_name version repo_id =
      updateAssoc action_name
        (fun e' => { e' with
          versions_used_in_repos :=
            updateAssoc version (fun l => l ++ [repo_id]) e'.versions_used_in_repos })
        t := by
  simp only [append_usage, he, hv]

theorem fold_skip {o : String} {r : RepoRecord} (hne : o ≠ "") (hown : r.owner ≠ o) :
    ∀ (uses : List String) (t : Table),
      (∀ u ∈ uses, (split_action u).isSome = true) →
      foldOpt (use_step (some o) r) t uses = some t := by
  intro uses
  induction uses with
  | nil => intro t _; rfl
  | cons u us ih =>
    intro t hall
    obtain ⟨⟨n, v⟩, hsa⟩ := Option.isSome_iff_exists.mp (hall u (by simp))
    rw [foldOpt_cons_some (use_step (some o) r) us (use_step_skip hsa hne hown t)]
    exact ih t (fun u' hu' => hall u' (by simp [hu']))

theorem get_repo_usage_filter_org (o : String) (hne : o ≠ "") :
    ∀ (repos_report : List RepoRecord) (t : Table),
      (∀ r ∈ repos_report, ∀ u ∈ r.uses, (split_action u).isSome = true) →
      get_repo_usage repos_report t (some o) =
        get_repo_usage (repos_report.filter (fun r => r.owner == o)) t (some o) := by
  intro report
  induction report with
  | nil => intro t _; rfl
  | cons r rest ih =>
    intro t hall
    by_cases hown : r.owner = o
    · have hf : List.filter (fun r' => r'.owner == o) (r :: rest) =
          r :: List.filter (fun r' => r'.owner == o) rest := by
        simp [List.filter_cons, hown]
      unfold get_repo_usage
      rw [hf]
      cases hstep : foldOpt (use_step (some o) r) t r.uses with
      | none =>
        rw [foldOpt_cons_none (fun t' r' => foldOpt (use_step (some o) r') t' r'.uses)
          rest hstep,
          foldOpt_cons_none (fun t' r' => foldOpt (use_step (some o) r') t' r'.uses)
          _ hstep]
      | some t₁ =>
        rw [foldOpt_cons_some (fun t' r' => foldOpt (use_step (some o) r') t' r'.uses)
          rest hstep,
          foldOpt_cons_some (fun t' r' => foldOpt (use_step (some o) r') t' r'.uses)
          _ hstep]
        exact ih t₁ (fun r' hr' u hu => hall r' (by simp [hr']) u hu)
    · have hf : List.filter (fun r' => r'.owner == o) (r :: rest) =
          List.filter (fun r' => r'.owner == o) rest := by
        simp [List.filter_cons, hown]
      unfold get_repo_usage
      rw [hf]
      have hskip := fold_skip hne hown r.uses t (fun u hu => hall r (by simp) u hu)
      rw [foldOpt_cons_some (fun t' r' => foldOpt (use_step (some o) r') t' r'.uses)
        rest hskip]
      exact ih t (fun r' hr' u hu => hall r' (by simp [hr']) u hu)

/-- Claim C4: records filtered out by the organization filter contribute
nothing; a matching or unfiltered record appends its owner-slash-repo
identifier to exactly the looked-up version entry; references absent from the
table are skipped without effect. -/
theorem claim_C4 :
    (∀ (repos_report : List RepoRecord) (t : Table) (o : String),
      o ≠ "" → (∀ r ∈ repos_report, ∀ u ∈ r.uses, (split_action u).isSome = true) →
      get_repo_usage repos_report t (some o) =
        get_repo_usage (repos_report.filter (fun r => r.owner == o)) t (some o)) ∧
    (∀ (t : Table) (org : Option String) (r : RepoRecord) (u action_name version : String),
      r.uses = [u] → split_action u = some (action_name, version) →
      (org = none ∨ org = some r.owner) →
      get_repo_usage [r] t org =
        some (append_usage t action_name version (r.owner ++ "/" ++ r.repo))) ∧
    (∀ (t : Table) (action_name version repo_id : String) (e : ActionEntry)
        (repos : List String),
      lookupKey action_name t = some e →
      lookupKey version e.versions_used_in_repos = some repos →
      (∀ n', n' ≠ action_name →
        lookupKey n' (append_usage t action_name version repo_id) = lookupKey n' t) ∧
      (∃ e', lookupKey action_name (append_usage t action_name version repo_id) = some e' ∧
        e'.latest_release = e.latest_release ∧
        lookupKey version e'.versions_used_in_repos = some (repos ++ [repo_id]) ∧
        (∀ v', v' ≠ version →
          lookupKey v' e'.versions_used_in_repos =
            lookupKey v' e.versions_used_in_repos))) ∧
    (∀ (t : Table) (action_name version repo_id : String),
      (lookupKey action_name t = none ∨
        ∃ e, lookupKey action_name t = some e ∧
          lookupKey version e.versions_used_in_repos = none) →
      append_usage t action_name version repo_id = t) := by
  refine ⟨?_, ?_, ?_, ?_⟩
  · intro report t o hne hall
    exact get_repo_usage_filter_org o hne report t hall
  · intro t org r u action_name version hu hsa horg
    have happ : use_step org r t u =
        some (append_usage t action_name version (r.owner ++ "/" ++ r.repo)) := by
      rcases horg with h | h
      · rw [h]
        exact use_step_app_none hsa t
      · rw [h]
        exact use_step_app_some hsa (by simp) t
    have hstep : foldOpt (use_step org r) t r.uses =
        some (append_usage t action_name version (r.owner ++ "/" ++ r.repo)) := by
      rw [hu, foldOpt_cons_some (use_step org r) [] happ]
      rfl
    show foldOpt (fun t' r' => foldOpt (use_step org r') t' r'.uses) t [r] = _
    rw [foldOpt_cons_some (fun t' r' => foldOpt (use_step org r') t' r'.uses) [] hstep]
    rfl
  · intro t action_name version repo_id e repos he hv
    rw [append_usage_present he hv]
    constructor
    · intro n' hn'
      rw [lookupKey_updateAssoc, if_neg hn']
    · refine ⟨{ e with
          versions_used_in_repos :=
            updateAssoc version (fun l => l ++ [repo_id]) e.versions_used_in_repos },
        ?_, rfl, ?_, ?_⟩
      · rw [lookupKey_updateAssoc, if_pos rfl, he, Option.map_some']
      · show lookupKey version
          (updateAssoc version (fun l => l ++ [repo_id]) e.versions_used_in_repos) =
            some (repos ++ [repo_id])
        rw [lookupKey_updateAssoc, if_pos rfl, hv, Option.map_some']
      · intro v' hv'
        show lookupKey v'
          (updateAssoc version (fun l => l ++ [repo_id]) e.versions_used_in_repos) =
            lookupKey v' e.versions_used_in_repos
        rw [lookupKey_updateAssoc, if_neg hv']
  · intro t action_name version repo_id h
    exact append_usage_absent h

/-- Witness for claim C4: a concrete run of each conjunct. -/
theorem claim_C4_witness :
    (get_repo_usage [⟨"b", "c", ["a/b@v1"]⟩]
        [("a/b", ⟨"v2", [("v1", ["x/y"])]⟩)] (some "a") =
      get_repo_usage
        (List.filter (fun r => r.owner == "a") [⟨"b", "c", ["a/b@v1"]⟩])
        [("a/b", ⟨"v2", [("v1", ["x/y"])]⟩)] (some "a")) ∧
    (get_repo_usage [⟨"a", "c", ["a/b@v1"]⟩]
        [("a/b", ⟨"v2", [("v1", ["x/y"])]⟩)] none =
      some (append_usage [("a/b", ⟨"v2", [("v1", ["x/y"])]⟩)] "a/b" "v1"
        ("a" ++ "/" ++ "c"))) ∧
    ((∀ n', n' ≠ "a/b" →
        lookupKey n' (append_usage [("a/b", ⟨"v2", [("v1", ["x/y"])]⟩)] "a/b" "v1" "a/c") =
          lookupKey n' [("a/b", ⟨"v2", [("v1", ["x/y"])]⟩)]) ∧
      (∃ e', lookupKey "a/b"
          (append_usage [("a/b", ⟨"v2", [("v1", ["x/y"])]⟩)] "a/b" "v1" "a/c") = some e' ∧
        e'.latest_release = (⟨"v2", [("v1", ["x/y"])]⟩ : ActionEntry).latest_release ∧
        lookupKey "v1" e'.versions_used_in_repos = some (["x/y"] ++ ["a/c"]) ∧
        (∀ v', v' ≠ "v1" →
          lookupKey v' e'.versions_used_in_repos =
            lookupKey v' (⟨"v2", [("v1", ["x/y"])]⟩ : ActionEntry).versions_used_in_repos))) ∧
    append_usage [("a/b", ⟨"v2", [("v1", ["x/y"])]⟩)] "a/b" "v0" "a/c" =
      [("a/b", ⟨"v2", [("v1", ["x/y"])]⟩)] := by
  refine ⟨?_, ?_, ?_, ?_⟩
  · exact claim_C4.1 [⟨"b", "c", ["a/b@v1"]⟩] [("a/b", ⟨"v2", [("v1", ["x/y"])]⟩)] "a"
      (by decide) (by decide)
  · exact claim_C4.2.1 [("a/b", ⟨"v2", [("v1", ["x/y"])]⟩)] none ⟨"a", "c", ["a/b@v1"]⟩
      "a/b@v1" "a/b" "v1" rfl (by decide) (Or.inl rfl)
  · exact claim_C4.2.2.1 [("a/b", ⟨"v2", [("v1", ["x/y"])]⟩)] "a/b" "v1" "a/c"
      ⟨"v2", [("v1", ["x/y"])]⟩ ["x/y"] (by decide) (by decide)
  · exact claim_C4.2.2.2 [("a/b", ⟨"v2", [("v1", ["x/y"])]⟩)] "a/b" "v0" "a/c"
      (Or.inr ⟨⟨"v2", [("v1", ["x/y"])]⟩, by decide, by decide⟩)

theorem table_extends_refl (t : Table) : table_extends t t := by
  refine ⟨rfl, fun n e he => ⟨e, he, rfl, rfl, fun v repos hv => ⟨[], ?_⟩⟩⟩
  rw [hv, List.append_nil]

theorem table_extends_trans {t₁ t₂ t₃ : Table}
    (h12 : table_extends t₁ t₂) (h23 : table_extends t₂ t₃) : table_extends t₁ t₃ := by
  refine ⟨h23.1.trans h12.1, fun n e he => ?_⟩
  obtain ⟨e', he', hrel, hkeys, hv⟩ := h12.2 n e he
  obtain ⟨e'', he'', hrel', hkeys', hv'⟩ := h23.2 n e' he'
  refine ⟨e'', he'', hrel'.trans hrel, hkeys'.trans hkeys, fun v repos hvr => ?_⟩
  obtain ⟨add₁, h1⟩ := hv v repos hvr
  obtain ⟨add₂, h2⟩ := hv' v _ h1
  exact ⟨add₁ ++ add₂, by rw [h2, List.append_assoc]⟩

theorem append_usage_extends (t : Table) (action_name version repo_id : String) :
    table_extends t (append_usage t action_name version repo_id) := by
  cases he : lookupKey action_name t with
  | none =>
    rw [append_usage_absent (Or.inl he)]
    exact table_extends_refl t
  | some e =>
    cases hv : lookupKey version e.versions_used_in_repos with
    | none =>
      rw [append_usage_absent (Or.inr ⟨e, he, hv⟩)]
      exact table_extends_refl t
    | some repos =>
      rw [append_usage_present he hv]
      constructor
      · exact map_fst_updateAssoc _ _ _
      · intro n e₀ he₀
        by_cases hnm : n = action_name
        · subst hnm
          have hee : e₀ = e := by
            rw [he₀] at he
            exact Option.some.inj he
          subst hee
          refine ⟨{ e₀ with
              versions_used_in_repos :=
                updateAssoc version (fun l => l ++ [repo_id])
                  e₀.versions_used_in_repos },
            ?_, rfl, ?_, ?_⟩
          · rw [lookupKey_updateAssoc, if_pos rfl, he₀, Option.map_some']
          · show (updateAssoc version (fun l => l ++ [repo_id])
                e₀.versions_used_in_repos).map Prod.fst =
              e₀.versions_used_in_repos.map Prod.fst
            exact map_fst_updateAssoc _ _ _
          · intro v repos₀ hv₀
            by_cases hvv : v = version
            · subst hvv
              have hrr : repos₀ = repos := by
                rw [hv₀] at hv
                exact Option.some.inj hv
              subst hrr
              refine ⟨[repo_id], ?_⟩
              show lookupKey v
                (updateAssoc v (fun l => l ++ [repo_id]) e₀.versions_used_in_repos) =
                  some (repos₀ ++ [repo_id])
              rw [lookupKey_updateAssoc, if_pos rfl, hv₀, Option.map_some']
            · refine ⟨[], ?_⟩
              show lookupKey v
                (updateAssoc version (fun l => l ++ [repo_id]) e₀.versions_used_in_repos) =
                  some (repos₀ ++ [])
              rw [lookupKey_updateAssoc, if_neg hvv, hv₀, List.append_nil]
        · refine ⟨e₀, ?_, rfl, rfl, fun v repos₀ hv₀ => ⟨[], ?_⟩⟩
          · rw [lookupKey_updateAssoc, if_neg hnm, he₀]
          · rw [hv₀, List.append_nil]

theorem use_step_extends {org : Option String} {r : RepoRecord} {t t' : Table}
    {action : String} (h : use_step org r t action = some t') : table_extends t t' := by
  unfold use_step at h
  split at h
  · cases h
  · split at h
    · split at h
      · cases h
        exact table_extends_refl _
      · cases h
        exact append_usage_extends _ _ _ _
    · cases h
      exact append_usage_extends _ _ _ _

/-- Claim C10: usage aggregation never adds or removes an action or version
key, never changes a latest release, and only extends usage lists at their
end, preserving the prior elements and order. -/
theorem claim_C10 (repos_report : List RepoRecord) (t : Table) (org : Option String)
    (t' : Table) (h : get_repo_usage repos_report t org = some t') :
    table_extends t t' := by
  have inner : ∀ (r : RepoRecord) (s s' : Table),
      foldOpt (use_step org r) s r.uses = some s' → table_extends s s' := by
    intro r s s' hf
    exact foldOpt_inv (fun x => table_extends s x) (use_step org r)
      (fun x a x' hx hstep => table_extends_trans hx (use_step_extends hstep))
      r.uses s s' hf (table_extends_refl s)
  exact foldOpt_inv (fun x => table_extends t x)
    (fun t'' r => foldOpt (use_step org r) t'' r.uses)
    (fun s a s' hs hstep => table_extends_trans hs (inner a s s' hstep))
    repos_report t t' h (table_extends_refl t)

/-- Witness for claim C10 on a concrete aggregation run. -/
theorem claim_C10_witness :
    table_extends [("a/b", ⟨"v2", [("v1", ["x/y"])]⟩)]
      [("a/b", ⟨"v2", [("v1", ["x/y", "a/c"])]⟩)] :=
  claim_C10 [⟨"a", "c", ["a/b@v1"]⟩] [("a/b", ⟨"v2", [("v1", ["x/y"])]⟩)] none
    [("a/b", ⟨"v2", [("v1", ["x/y", "a/c"])]⟩)] (by decide)

/-- Claim C5: cleanup removes exactly the version entries with empty usage
lists and exactly the actions whose version mapping becomes empty; every
surviving entry keeps its latest release and its non-empty lists unchanged,
and in the result every usage list is non-empty and every action keeps at
least one version. -/
theorem claim_C5 (t : Table) :
    (∀ action_name e', (action_name, e') ∈ clean_output t ↔
      ∃ e, (action_name, e) ∈ t ∧ e'.latest_release = e.latest_release ∧
        e'.versions_used_in_repos =
          e.versions_used_in_repos.filter (fun q => !q.2.isEmpty) ∧
        e'.versions_used_in_repos ≠ []) ∧
    (∀ p ∈ clean_output t, p.2.versions_used_in_repos ≠ [] ∧
      ∀ q ∈ p.2.versions_used_in_repos, q.2 ≠ []) := by
  constructor
  · intro action_name e'
    unfold clean_output
    rw [List.mem_filter, List.mem_map]
    constructor
    · rintro ⟨⟨p, hp, hpe⟩, hne⟩
      obtain ⟨pn, pe⟩ := p
      injection hpe with h1 h2
      subst h1
      subst h2
      refine ⟨pe, hp, rfl, rfl, ?_⟩
      intro hc
      have hc' : pe.versions_used_in_repos.filter (fun q => !q.2.isEmpty) = [] := hc
      rw [hc'] at hne
      simp at hne
    · rintro ⟨e, hmem, hrel, hvers, hne⟩
      obtain ⟨lr, vs⟩ := e'
      simp only at hrel hvers
      subst hrel
      subst hvers
      refine ⟨⟨(action_name, e), hmem, rfl⟩, ?_⟩
      show (!(e.versions_used_in_repos.filter (fun q => !q.2.isEmpty)).isEmpty) = true
      cases hfil : e.versions_used_in_repos.filter (fun q => !q.2.isEmpty) with
      | nil =>
        exact absurd hfil (by simpa using hne)
      | cons q qs => rfl
  · intro p hp
    unfold clean_output at hp
    rcases List.mem_filter.mp hp with ⟨hmem, hne⟩
    rcases List.mem_map.mp hmem with ⟨q, hq, hqe⟩
    subst hqe
    have hne' : (!(q.2.versions_used_in_repos.filter
        (fun r => !r.2.isEmpty)).isEmpty) = true := hne
    constructor
    · intro hc
      have hc' : q.2.versions_used_in_repos.filter (fun r => !r.2.isEmpty) = [] := hc
      rw [hc'] at hne'
      simp at hne'
    · intro qq hqq
      have hqq' : qq ∈ q.2.versions_used_in_repos.filter (fun r => !r.2.isEmpty) := hqq
      rcases List.mem_filter.mp hqq' with ⟨_, hq2⟩
      intro hc
      rw [hc] at hq2
      simp at hq2

/-- Witness for claim C5: cleanup on a table with one empty version list and
one fully empty action. -/
theorem claim_C5_witness :
    (("a/b", (⟨"v2", [("v0", ["a/c"])]⟩ : ActionEntry)) ∈
      clean_output [("a/b", ⟨"v2", [("v1", []), ("v0", ["a/c"])]⟩),
        ("x/y", ⟨"v1", [("v1", [])]⟩)]) ∧
    ("v0", ["a/c"]).2 ≠ ([] : List String) :=
  ⟨by decide,
    ((claim_C5 [("a/b", ⟨"v2", [("v1", []), ("v0", ["a/c"])]⟩),
        ("x/y", ⟨"v1", [("v1", [])]⟩)]).2
      ("a/b", ⟨"v2", [("v0", ["a/c"])]⟩) (by decide)).2 ("v0", ["a/c"]) (by decide)⟩

/-! ## The CSV writer and the end-to-end pipeline (claim C1) -/

theorem foldl_append_concatMap {α β : Type} (g : α → List β) :
    ∀ (l : List α) (init : List β),
      l.foldl (fun acc x => acc ++ g x) init = init ++ concatMap g l := by
  intro l
  induction l with
  | nil => intro init; simp [concatMap]
  | cons a l ih =>
    intro init
    rw [List.foldl_cons, ih, List.append_assoc]
    rfl

theorem concatMap_singleton_map {α β : Type} (f : α → β) :
    ∀ l : List α, concatMap (fun x => [f x]) l = l.map f := by
  intro l
  induction l with
  | nil => rfl
  | cons a l ih =>
    show [f a] ++ concatMap (fun x => [f x]) l = (a :: l).map f
    rw [ih]
    rfl

theorem concatMap_congr {α β : Type} {f g : α → List β} :
    ∀ {l : List α}, (∀ a ∈ l, f a = g a) → concatMap f l = concatMap g l := by
  intro l
  induction l with
  | nil => intro _; rfl
  | cons a l ih =>
    intro h
    show f a ++ concatMap f l = g a ++ concatMap g l
    rw [h a (by simp), ih (fun a' ha' => h a' (by simp [ha']))]

theorem write_csv_rows (t : Table) :
    write_outdated_actions_csv t =
      csv_header :: concatMap (fun p => p.2.versions_used_in_repos.map
        (fun q => p.1 ++ "," ++ p.2.latest_release ++ "," ++ q.1 ++ ","
          ++ String.intercalate ";" q.2 ++ "\n")) t := by
  have hinner : ∀ p : String × ActionEntry,
      p.2.versions_used_in_repos.foldl
        (fun ls q => ls ++ [p.1 ++ "," ++ p.2.latest_release ++ "," ++ q.1 ++ ","
          ++ String.intercalate ";" q.2 ++ "\n"]) [] =
      p.2.versions_used_in_repos.map
        (fun q => p.1 ++ "," ++ p.2.latest_release ++ "," ++ q.1 ++ ","
          ++ String.intercalate ";" q.2 ++ "\n") := by
    intro p
    refine Eq.trans (foldl_append_concatMap
      (fun q => [p.1 ++ "," ++ p.2.latest_release ++ "," ++ q.1 ++ ","
        ++ String.intercalate ";" q.2 ++ "\n"]) p.2.versions_used_in_repos []) ?_
    rw [List.nil_append, concatMap_singleton_map]
  unfold write_outdated_actions_csv
  refine Eq.trans (foldl_append_concatMap _ t [csv_header]) ?_
  rw [concatMap_congr (fun p _ => hinner p)]
  rfl

/-- Claim C1: the end-to-end pipeline on the specified example produces
exactly the header row and the single data row a/b,v2,v1,a/c; in general the
CSV writer emits one row per action-and-version pair, the repository list
joined by semicolons. -/
theorem claim_C1 :
    run_pipeline (fun name => if name = "a/b" then some "v2" else none)
        ["a/b@v1", "a/b@v2"] [⟨"a", "c", ["a/b@v1"]⟩] false none =
      some ["action_name,latest_release,used_version,used_in_repos\n",
        "a/b,v2,v1,a/c\n"] ∧
    ∀ t : Table, write_outdated_actions_csv t =
      csv_header :: concatMap (fun p => p.2.versions_used_in_repos.map
        (fun q => p.1 ++ "," ++ p.2.latest_release ++ "," ++ q.1 ++ ","
          ++ String.intercalate ";" q.2 ++ "\n")) t :=
  ⟨by decide, write_csv_rows⟩

/-! ## Glob matching and the allow-list comparison (claim C8) -/

theorem glob_star : ∀ s : List Char, glob ['*'] s = true := by
  intro s
  induction s with
  | nil => rfl
  | cons c s ih =>
    unfold glob
    rw [if_pos rfl]
    show ((c :: s).isEmpty || (s.tails.any fun suf => glob [] suf)) = true
    have hrest : (s.tails.any fun suf => glob [] suf) = true := by
      unfold glob at ih
      rw [if_pos rfl] at ih
      exact ih
    rw [hrest, Bool.or_true]

theorem glob_lit_star : ∀ lit : List Char, (∀ c ∈ lit, ¬c = '*' ∧ ¬c = '?') →
    ∀ s : List Char, (glob (lit ++ ['*']) s = true ↔ starts_with lit s = true) := by
  intro lit
  induction lit with
  | nil =>
    intro _ s
    rw [List.nil_append]
    constructor
    · intro _; rfl
    · intro _; exact glob_star s
  | cons c cs ih =>
    intro hmeta s
    have hc := hmeta c (by simp)
    cases s with
    | nil =>
      have hg : glob ((c :: cs) ++ ['*']) [] = false := by
        show glob (c :: (cs ++ ['*'])) [] = false
        unfold glob
        rw [if_neg hc.1]
      rw [hg, show starts_with (c :: cs) [] = false from rfl]
    | cons d s' =>
      have hg : glob ((c :: cs) ++ ['*']) (d :: s') =
          ((c == '?' || c == d) && glob (cs ++ ['*']) s') := by
        show glob (c :: (cs ++ ['*'])) (d :: s') = _
        simp only [glob]
        rw [if_neg hc.1]
      have hq : (c == '?') = false := by
        simp only [beq_eq_false_iff_ne, ne_eq]
        exact hc.2
      rw [hg, hq, Bool.false_or,
        show starts_with (c :: cs) (d :: s') = ((c == d) && starts_with cs s') from rfl,
        Bool.and_eq_true, Bool.and_eq_true]
      have ih' := ih (fun c' hc' => hmeta c' (by simp [hc'])) s'
      constructor
      · rintro ⟨h1, h2⟩
        exact ⟨h1, ih'.mp h2⟩
      · rintro ⟨h1, h2⟩
        exact ⟨h1, ih'.mpr h2⟩

theorem compare_loop (t : Table) :
    ∀ (patterns : List String) (c : Nat) (ls : List String),
      patterns.foldl
        (fun acc pattern =>
          if pattern_matches t pattern then (acc.1 + 1, acc.2)
          else (acc.1, acc.2 ++ [pattern ++ "\n"])) (c, ls) =
      (c + (patterns.filter (fun p => pattern_matches t p)).length,
        ls ++ (patterns.filter (fun p => !pattern_matches t p)).map (fun p => p ++ "\n")) := by
  intro patterns
  induction patterns with
  | nil => intro c ls; simp
  | cons p ps ih =>
    intro c ls
    rw [List.foldl_cons]
    by_cases hm : pattern_matches t p = true
    · have hstep : (if pattern_matches t p then ((c, ls).1 + 1, (c, ls).2)
          else ((c, ls).1, (c, ls).2 ++ [p ++ "\n"])) = (c + 1, ls) := by
        simp [hm]
      rw [hstep, ih, List.filter_cons, List.filter_cons]
      simp only [hm, if_true, Bool.not_true, Bool.false_eq_true, if_false,
        List.length_cons, Prod.mk.injEq]
      exact ⟨by omega, trivial⟩
    · have hm' : pattern_matches t p = false := by
        cases hb : pattern_matches t p with
        | false => rfl
        | true => exact absurd hb hm
      have hstep : (if pattern_matches t p then ((c, ls).1 + 1, (c, ls).2)
          else ((c, ls).1, (c, ls).2 ++ [p ++ "\n"])) = (c, ls ++ [p ++ "\n"]) := by
        simp [hm']
      rw [hstep, ih, List.filter_cons, List.filter_cons]
      simp only [hm', Bool.false_eq_true, if_false, Bool.not_false, if_true,
        List.map_cons, Prod.mk.injEq]
      refine ⟨trivial, ?_⟩
      rw [List.append_assoc]
      rfl

/-- Claim C8: a surviving pattern is counted as matching exactly when it
glob-matches at least one action-name key of the table, and is written to the
report exactly when it matches none; the pattern owner-slash-star matches
exactly the keys that start with owner-slash. -/
theorem claim_C8 (allowed_actions_patterns : List String) (actions_versions : Table) :
    (compare_allowed_actions allowed_actions_patterns actions_versions).1 =
      (allowed_actions_patterns.filter
        (fun p => pattern_matches actions_versions p)).length ∧
    (compare_allowed_actions allowed_actions_patterns actions_versions).2 =
      report_header :: (allowed_actions_patterns.filter
        (fun p => !pattern_matches actions_versions p)).map (fun p => p ++ "\n") ∧
    (∀ pattern, pattern_matches actions_versions pattern = true ↔
      ∃ q ∈ actions_versions, fnmatch q.1 pattern = true) ∧
    (pattern_matches actions_versions "owner/*" = true ↔
      ∃ q ∈ actions_versions, starts_with (String.toList "owner/") q.1.toList = true) := by
  have hloop := compare_loop actions_versions allowed_actions_patterns 0 [report_header]
  have hts : ("owner/*" : String).toList = String.toList "owner/" ++ ['*'] := by decide
  have hmeta : ∀ c ∈ String.toList "owner/", ¬c = '*' ∧ ¬c = '?' := by decide
  refine ⟨?_, ?_, ?_, ?_⟩
  · unfold compare_allowed_actions
    rw [hloop]
    simp
  · unfold compare_allowed_actions
    rw [hloop]
    rfl
  · intro pattern
    unfold pattern_matches
    rw [List.any_eq_true]
  · unfold pattern_matches
    rw [List.any_eq_true]
    constructor
    · rintro ⟨q, hq, hf⟩
      refine ⟨q, hq, ?_⟩
      unfold fnmatch at hf
      rw [hts] at hf
      exact (glob_lit_star (String.toList "owner/") hmeta q.1.toList).mp hf
    · rintro ⟨q, hq, hs⟩
      refine ⟨q, hq, ?_⟩
      unfold fnmatch
      rw [hts]
      exact (glob_lit_star (String.toList "owner/") hmeta q.1.toList).mpr hs

/-! ## The allow-list purge loop (claim C3) -/

theorem length_remove_first {x : String} : ∀ {l : List String}, x ∈ l →
    (remove_first x l).length + 1 = l.length := by
  intro l
  induction l with
  | nil => intro h; cases h
  | cons y ys ih =>
    intro h
    by_cases hxy : y = x
    · simp [remove_first, hxy]
    · rw [remove_first, if_neg hxy]
      have hx : x ∈ ys := by
        rcases List.mem_cons.mp h with h1 | h1
        · exact absurd h1.symm hxy
        · exact h1
      have := ih hx
      simp only [List.length_cons]
      omega

theorem purge_loop_fuel_irrel : ∀ (fuel₁ fuel₂ i : Nat) (patterns : List String),
    patterns.length - i ≤ fuel₁ → patterns.length - i ≤ fuel₂ →
    purge_loop fuel₁ patterns i = purge_loop fuel₂ patterns i := by
  intro fuel₁
  induction fuel₁ with
  | zero =>
    intro fuel₂ i patterns h1 h2
    cases fuel₂ with
    | zero => rfl
    | succ f =>
      show patterns = purge_loop (f + 1) patterns i
      rw [purge_loop, dif_neg (by omega)]
  | succ f₁ ih =>
    intro fuel₂ i patterns h1 h2
    by_cases hi : i < patterns.length
    · cases fuel₂ with
      | zero => omega
      | succ f₂ =>
        rw [purge_loop, purge_loop, dif_pos hi, dif_pos hi]
        by_cases hw : is_workflow_pattern (patterns.get ⟨i, hi⟩) = true
        · rw [if_pos hw, if_pos hw]
          have hrm := length_remove_first (List.get_mem patterns i hi)
          apply ih <;> omega
        · rw [if_neg hw, if_neg hw]
          apply ih <;> omega
    · cases fuel₂ with
      | zero =>
        show purge_loop (f₁ + 1) patterns i = patterns
        rw [purge_loop, dif_neg hi]
      | succ f₂ =>
        rw [purge_loop, purge_loop, dif_neg hi, dif_neg hi]

/-- Claim C3 evaluation: with two consecutive reusable-workflow patterns the
purge loop removes only the first; the surviving second pattern still ends in
the workflow suffix, and against an empty table the comparison writes it to
the unmatched report. This exhibits the iterate-while-removing slip of source
lines 134-137 against the stated removal of every such pattern. -/
theorem claim_C3_code_behavior :
    get_allowed_actions ["a.yml@v1", "b.yml@v1"] = ["b.yml@v1"] ∧
    is_workflow_pattern "b.yml@v1" = true ∧
    compare_allowed_actions (get_allowed_actions ["a.yml@v1", "b.yml@v1"]) [] =
      (0, [report_header, "b.yml@v1\n"]) :=
  ⟨by decide, by decide, by decide⟩

/-! ## Loading the reports (claim C9) -/

/-- Claim C9: on a parse failure of either stream the loader prints the error
and terminates with exit code one; in every case both streams are closed
before the function returns or the process terminates. -/
theorem claim_C9 {α β : Type} (p1 : Except String α) (p2 : Except String β) :
    ∃ pre last, (load_reports p1 p2).2 = pre ++ [last] ∧
      LoadEv.close_report ∈ pre ∧ LoadEv.close_unique ∈ pre ∧
      ((∃ a b, p1 = Except.ok a ∧ p2 = Except.ok b ∧ last = LoadEv.ret ∧
          (load_reports p1 p2).1 = some (a, b)) ∨
        (last = LoadEv.exit_code 1 ∧ (load_reports p1 p2).1 = none ∧
          (∃ msg, LoadEv.print_msg msg ∈ pre) ∧
          ((∃ e, p1 = Except.error e) ∨ ∃ e, p2 = Except.error e))) := by
  cases p1 with
  | error e =>
    exact ⟨[LoadEv.print_msg (load_error_msg e), LoadEv.close_report, LoadEv.close_unique],
      LoadEv.exit_code 1, rfl, by simp, by simp,
      Or.inr ⟨rfl, rfl, ⟨load_error_msg e, by simp⟩, Or.inl ⟨e, rfl⟩⟩⟩
  | ok a =>
    cases p2 with
    | error e =>
      exact ⟨[LoadEv.print_msg (load_error_msg e), LoadEv.close_report, LoadEv.close_unique],
        LoadEv.exit_code 1, rfl, by simp, by simp,
        Or.inr ⟨rfl, rfl, ⟨load_error_msg e, by simp⟩, Or.inr ⟨e, rfl⟩⟩⟩
    | ok b =>
      exact ⟨[LoadEv.close_report, LoadEv.close_unique], LoadEv.ret, rfl, by simp, by simp,
        Or.inl ⟨a, b, rfl, rfl, rfl, rfl⟩⟩

end ActionsVersionCheck
